import Mathlib

/-!
Shallow embedding of the yt-downloader script: filesystem-safe naming,
collision-avoiding output paths, the stream-selection policy built on the
pytube query combinators (filter / order_by / desc / first / get_by_itag),
and the fetch-and-merge orchestration with its exit-code policy.

External effects (the hosting-site client, the muxer subprocess, the
filesystem) are modelled by an explicit environment record; pure helper
functions are translated directly from the source.
-/

/-- Whitespace characters as matched by the whitespace class of the
script's regular expressions and by str.strip (ASCII range). -/
def isWsChar (c : Char) : Bool :=
  c = ' ' || c = '\t' || c = '\n' || c = '\r' || c = '\x0b' || c = '\x0c'

/-- The characters replaced by the first substitution in fs_safe_filename. -/
def isIllegalChar (c : Char) : Bool :=
  c = '\\' || c = '/' || c = '*' || c = '?' || c = ':' || c = '\"' ||
  c = '<' || c = '>' || c = '|'

/-- Per-character effect of the first substitution in fs_safe_filename. -/
def replChar (c : Char) : Char := if isIllegalChar c then '_' else c

/-- Python str.strip on a character list: drop leading and trailing
whitespace. -/
def stripWs (l : List Char) : List Char :=
  ((l.dropWhile isWsChar).reverse.dropWhile isWsChar).reverse

/-- Substitution of every maximal whitespace run by a single space
(the second substitution in fs_safe_filename). -/
def collapseWs : List Char → List Char
  | [] => []
  | [c] => if isWsChar c then [' '] else [c]
  | c :: d :: rest =>
    if isWsChar c && isWsChar d then collapseWs (d :: rest)
    else (if isWsChar c then ' ' else c) :: collapseWs (d :: rest)

/-- Embedding of fs_safe_filename: replace each illegal character by an
underscore, strip leading/trailing whitespace, then collapse every
whitespace run to a single space. -/
def fs_safe_filename (name : String) : String :=
  ⟨collapseWs (stripWs (name.data.map replChar))⟩

/-- Detects two adjacent whitespace characters (an uncollapsed run). -/
def hasDoubleWs : List Char → Bool
  | [] => false
  | [_] => false
  | c :: d :: rest => (isWsChar c && isWsChar d) || hasDoubleWs (d :: rest)

theorem stringDataEq {s t : String} (h : s.data = t.data) : s = t := by
  cases s
  cases t
  exact congrArg String.mk h

theorem getLast?_cons_of_ne {α : Type} {a : α} {l : List α} (h : l ≠ []) :
    (a :: l).getLast? = l.getLast? := by
  cases l with
  | nil => exact absurd rfl h
  | cons b t => rw [List.getLast?_cons_cons]

theorem isIllegalChar_replChar (c : Char) : isIllegalChar (replChar c) = false := by
  unfold replChar
  split
  · decide
  · next h => simpa using h

theorem isWsChar_replChar (c : Char) (h : isWsChar c = false) :
    isWsChar (replChar c) = false := by
  unfold replChar
  split
  · decide
  · exact h

theorem collapseWs_ne_nil {l : List Char} (h : l ≠ []) : collapseWs l ≠ [] := by
  match l with
  | [c] =>
    unfold collapseWs
    by_cases hw : isWsChar c = true <;> simp [hw]
  | c :: d :: rest =>
    unfold collapseWs
    by_cases hw : (isWsChar c && isWsChar d) = true
    · simp [hw]; exact collapseWs_ne_nil (by simp)
    · simp [hw]

theorem mem_collapseWs {c : Char} : ∀ {l : List Char}, c ∈ collapseWs l → c = ' ' ∨ c ∈ l
  | [], h => by simp [collapseWs] at h
  | [d], h => by
    by_cases hw : isWsChar d = true <;> simp [collapseWs, hw] at h <;> simp [h]
  | d :: e :: rest, h => by
    unfold collapseWs at h
    by_cases hw : (isWsChar d && isWsChar e) = true
    · simp only [hw, if_true] at h
      rcases mem_collapseWs h with h1 | h1
      · exact Or.inl h1
      · exact Or.inr (List.mem_cons_of_mem _ h1)
    · simp only [hw, if_false] at h
      rcases List.mem_cons.mp h with h1 | h1
      · by_cases hd : isWsChar d = true
        · simp [hd] at h1; exact Or.inl h1
        · simp [hd] at h1; subst h1; simp
      · rcases mem_collapseWs h1 with h2 | h2
        · exact Or.inl h2
        · exact Or.inr (List.mem_cons_of_mem _ h2)

theorem mem_stripWs {c : Char} {l : List Char} (h : c ∈ stripWs l) : c ∈ l := by
  unfold stripWs at h
  rw [List.mem_reverse] at h
  have h1 := (List.dropWhile_sublist (l := (l.dropWhile isWsChar).reverse)
    (p := isWsChar)).mem h
  rw [List.mem_reverse] at h1
  exact (List.dropWhile_sublist (l := l) (p := isWsChar)).mem h1

theorem head?_dropWhile {p : Char → Bool} :
    ∀ {l : List Char} {c : Char}, (l.dropWhile p).head? = some c → p c = false
  | [], c, h => by simp [List.dropWhile] at h
  | d :: rest, c, h => by
    rw [List.dropWhile_cons] at h
    cases hp : p d with
    | true =>
      simp only [hp, if_true] at h
      exact head?_dropWhile h
    | false =>
      simp [hp] at h
      subst h
      exact hp

theorem getLast?_dropWhile {p : Char → Bool} :
    ∀ {l : List Char}, l.dropWhile p ≠ [] → (l.dropWhile p).getLast? = l.getLast?
  | [], h => by simp [List.dropWhile] at h
  | d :: rest, h => by
    rw [List.dropWhile_cons] at h ⊢
    cases hp : p d with
    | true =>
      simp only [hp, if_true] at h ⊢
      have hrest : rest ≠ [] := by
        intro hnil
        subst hnil
        simp [List.dropWhile] at h
      rw [getLast?_dropWhile h, getLast?_cons_of_ne hrest]
    | false => simp [hp]

theorem stripWs_head {l : List Char} {c : Char}
    (h : (stripWs l).head? = some c) : isWsChar c = false := by
  unfold stripWs at h
  rw [List.head?_reverse] at h
  have hne : (l.dropWhile isWsChar).reverse.dropWhile isWsChar ≠ [] := by
    intro hnil
    rw [hnil] at h
    simp at h
  rw [getLast?_dropWhile hne, List.getLast?_reverse] at h
  exact head?_dropWhile h

theorem stripWs_getLast {l : List Char} {c : Char}
    (h : (stripWs l).getLast? = some c) : isWsChar c = false := by
  unfold stripWs at h
  rw [List.getLast?_reverse] at h
  exact head?_dropWhile h

theorem collapseWs_head : ∀ {l : List Char} {c : Char},
    l.head? = some c → isWsChar c = false → (collapseWs l).head? = some c
  | [], c, h, _ => by simp at h
  | [d], c, h, hw => by
    simp only [List.head?_cons, Option.some.injEq] at h
    subst h
    simp [collapseWs, hw]
  | d :: e :: rest, c, h, hw => by
    simp only [List.head?_cons, Option.some.injEq] at h
    subst h
    unfold collapseWs
    simp [hw]

theorem collapseWs_getLast_nonWs :
    ∀ {l : List Char}, (∀ c, l.getLast? = some c → isWsChar c = false) →
      ∀ c, (collapseWs l).getLast? = some c → isWsChar c = false
  | [], _, c, hc => by simp [collapseWs] at hc
  | [d], h, c, hc => by
    have hd : isWsChar d = false := h d (by simp)
    simp [collapseWs, hd] at hc
    subst hc
    exact hd
  | d :: e :: rest, h, c, hc => by
    have htail : ∀ x, (e :: rest).getLast? = some x → isWsChar x = false := by
      intro x hx
      exact h x (by rwa [List.getLast?_cons_cons])
    unfold collapseWs at hc
    by_cases hw : (isWsChar d && isWsChar e) = true
    · simp only [hw, if_true] at hc
      exact collapseWs_getLast_nonWs htail c hc
    · rw [if_neg hw] at hc
      have hne : collapseWs (e :: rest) ≠ [] := collapseWs_ne_nil (by simp)
      rw [getLast?_cons_of_ne hne] at hc
      exact collapseWs_getLast_nonWs htail c hc

theorem collapseWs_ws_eq_space :
    ∀ {l : List Char} {c : Char}, c ∈ collapseWs l → isWsChar c = true → c = ' '
  | [], c, h, _ => by simp [collapseWs] at h
  | [d], c, h, hw => by
    by_cases hd : isWsChar d = true
    · simp [collapseWs, hd] at h; exact h
    · simp [collapseWs, hd] at h; subst h; simp [hd] at hw
  | d :: e :: rest, c, h, hw => by
    unfold collapseWs at h
    by_cases hde : (isWsChar d && isWsChar e) = true
    · simp only [hde, if_true] at h
      exact collapseWs_ws_eq_space h hw
    · simp only [hde, if_false] at h
      rcases List.mem_cons.mp h with h1 | h1
      · by_cases hd : isWsChar d = true
        · simpa [hd] using h1
        · simp [hd] at h1; subst h1; simp [hd] at hw
      · exact collapseWs_ws_eq_space h1 hw

theorem collapseWs_noDouble : ∀ (l : List Char), hasDoubleWs (collapseWs l) = false
  | [] => by simp [collapseWs, hasDoubleWs]
  | [c] => by
    by_cases hw : isWsChar c = true <;> simp [collapseWs, hw, hasDoubleWs]
  | c :: d :: rest => by
    unfold collapseWs
    by_cases hcd : (isWsChar c && isWsChar d) = true
    · simp only [hcd, if_true]
      exact collapseWs_noDouble (d :: rest)
    · simp only [hcd, if_false]
      have htail := collapseWs_noDouble (d :: rest)
      -- the emitted head is either a non-whitespace char or a space followed
      -- by a non-whitespace head of the collapsed tail
      by_cases hc : isWsChar c = true
      · have hdf : isWsChar d = false := by
          cases hdd : isWsChar d
          · rfl
          · exact absurd (by simp [hc, hdd]) hcd
        simp only [hc, if_true]
        have hhead : (collapseWs (d :: rest)).head? = some d :=
          collapseWs_head (by simp) hdf
        cases hcol : collapseWs (d :: rest) with
        | nil => exact absurd hcol (collapseWs_ne_nil (by simp))
        | cons x xs =>
          rw [hcol] at hhead htail
          simp only [List.head?_cons, Option.some.injEq] at hhead
          subst hhead
          simpa [hasDoubleWs, hdf] using htail
      · simp only [hc, if_false]
        cases hcol : collapseWs (d :: rest) with
        | nil => exact absurd hcol (collapseWs_ne_nil (by simp))
        | cons x xs =>
          rw [hcol] at htail
          simpa [hasDoubleWs, hc] using htail

theorem map_replChar_eq_self {l : List Char}
    (h : ∀ c ∈ l, isIllegalChar c = false) : l.map replChar = l := by
  induction l with
  | nil => rfl
  | cons c rest ih =>
    have hc := h c (by simp)
    simp only [List.map_cons]
    rw [ih (fun x hx => h x (List.mem_cons_of_mem _ hx))]
    unfold replChar
    simp [hc]

theorem dropWhile_eq_self_of_head {p : Char → Bool} {l : List Char}
    (h : ∀ c, l.head? = some c → p c = false) : l.dropWhile p = l := by
  cases l with
  | nil => rfl
  | cons c rest =>
    have hc := h c (by simp)
    simp [List.dropWhile_cons, hc]

theorem stripWs_eq_self {l : List Char}
    (hh : ∀ c, l.head? = some c → isWsChar c = false)
    (hl : ∀ c, l.getLast? = some c → isWsChar c = false) : stripWs l = l := by
  unfold stripWs
  rw [dropWhile_eq_self_of_head hh]
  rw [dropWhile_eq_self_of_head (by
    intro c hc
    rw [List.head?_reverse] at hc
    exact hl c hc)]
  exact List.reverse_reverse l

theorem collapseWs_eq_self :
    ∀ {l : List Char}, hasDoubleWs l = false →
      (∀ c ∈ l, isWsChar c = true → c = ' ') → collapseWs l = l
  | [], _, _ => rfl
  | [c], _, hsp => by
    by_cases hw : isWsChar c = true
    · have := hsp c (by simp) hw
      subst this
      simp [collapseWs]
    · simp [collapseWs, hw]
  | c :: d :: rest, hnd, hsp => by
    unfold hasDoubleWs at hnd
    rcases Bool.or_eq_false_iff.mp hnd with ⟨hcd, htail⟩
    unfold collapseWs
    simp only [hcd, if_false]
    rw [collapseWs_eq_self htail
      (fun x hx hw => hsp x (List.mem_cons_of_mem _ hx) hw)]
    by_cases hc : isWsChar c = true
    · have := hsp c (by simp) hc
      subst this
      simp
    · simp [hc]

/-- The normal form computed by fs_safe_filename: no illegal characters,
every whitespace character is a plain space, no two adjacent whitespace
characters, and no leading or trailing whitespace. -/
theorem fs_safe_data_facts (s : String) :
    (∀ c ∈ (fs_safe_filename s).data, isIllegalChar c = false ∧ (isWsChar c = true → c = ' '))
    ∧ hasDoubleWs (fs_safe_filename s).data = false
    ∧ (∀ c, (fs_safe_filename s).data.head? = some c → isWsChar c = false)
    ∧ (∀ c, (fs_safe_filename s).data.getLast? = some c → isWsChar c = false) := by
  unfold fs_safe_filename
  refine ⟨?_, ?_, ?_, ?_⟩
  · intro c hc
    constructor
    · rcases mem_collapseWs hc with h | h
      · subst h; decide
      · have h2 := mem_stripWs h
        rcases List.mem_map.mp h2 with ⟨a, _, ha⟩
        rw [← ha]
        exact isIllegalChar_replChar a
    · intro hw
      exact collapseWs_ws_eq_space hc hw
  · exact collapseWs_noDouble _
  · intro c hc
    cases hstrip : (stripWs (s.data.map replChar)) with
    | nil => rw [hstrip] at hc; simp [collapseWs] at hc
    | cons x xs =>
      have hx : isWsChar x = false := stripWs_head (by rw [hstrip]; simp)
      have := collapseWs_head (l := x :: xs) (c := x) (by simp) hx
      rw [hstrip] at hc
      rw [this] at hc
      injection hc with hc
      subst hc
      exact hx
  · intro c hc
    refine collapseWs_getLast_nonWs (l := stripWs (s.data.map replChar)) ?_ c hc
    intro x hx
    exact stripWs_getLast hx

/-- C8: fs_safe_filename is idempotent: sanitising an already sanitised
name changes nothing. -/
theorem C8_fs_safe_filename_idempotent (s : String) :
    fs_safe_filename (fs_safe_filename s) = fs_safe_filename s := by
  obtain ⟨hchars, hnd, hhead, hlast⟩ := fs_safe_data_facts s
  apply stringDataEq
  show collapseWs (stripWs ((fs_safe_filename s).data.map replChar)) = (fs_safe_filename s).data
  rw [map_replChar_eq_self (fun c hc => (hchars c hc).1)]
  rw [stripWs_eq_self hhead hlast]
  exact collapseWs_eq_self hnd (fun c hc hw => (hchars c hc).2 hw)

theorem mem_of_head?_some {α : Type} {l : List α} {a : α} (h : l.head? = some a) : a ∈ l := by
  cases l with
  | nil => simp at h
  | cons b t =>
    simp only [List.head?_cons, Option.some.injEq] at h
    subst h
    simp

theorem mem_of_getLast?_some {α : Type} : ∀ {l : List α} {a : α}, l.getLast? = some a → a ∈ l
  | [], a, h => by simp at h
  | [b], a, h => by
    simp only [List.getLast?_singleton, Option.some.injEq] at h
    subst h
    simp
  | b :: c :: t, a, h => by
    rw [List.getLast?_cons_cons] at h
    exact List.mem_cons_of_mem _ (mem_of_getLast?_some h)

theorem hasDoubleWs_eq_false :
    ∀ {l : List Char}, (∀ c ∈ l, isWsChar c = false) → hasDoubleWs l = false
  | [], _ => rfl
  | [_], _ => rfl
  | c :: d :: rest, h => by
    show ((isWsChar c && isWsChar d) || hasDoubleWs (d :: rest)) = false
    rw [h c (by simp)]
    rw [hasDoubleWs_eq_false (fun x hx => h x (List.mem_cons_of_mem _ hx))]
    rfl

/-- C9: fs_safe_filename replaces each illegal character by an underscore
(on whitespace-free inputs it is exactly the character-wise replacement),
leaves no illegal character and no uncollapsed whitespace run in its
output (every whitespace in the output is a single plain space), and maps
"Ab?c*d" to "Ab_c_d". -/
theorem C9_fs_safe_replacement :
    (∀ s : String, (∀ c ∈ s.data, isWsChar c = false) →
        fs_safe_filename s = ⟨s.data.map replChar⟩)
    ∧ (∀ s : String, ∀ c ∈ (fs_safe_filename s).data,
        isIllegalChar c = false ∧ (isWsChar c = true → c = ' '))
    ∧ (∀ s : String, hasDoubleWs (fs_safe_filename s).data = false)
    ∧ fs_safe_filename "Ab?c*d" = "Ab_c_d" := by
  refine ⟨?_, ?_, ?_, ?_⟩
  · intro s h
    apply stringDataEq
    show collapseWs (stripWs (s.data.map replChar)) = s.data.map replChar
    have hno : ∀ c ∈ s.data.map replChar, isWsChar c = false := by
      intro c hc
      rcases List.mem_map.mp hc with ⟨a, ha, rfl⟩
      exact isWsChar_replChar a (h a ha)
    rw [stripWs_eq_self (fun c hc => hno c (mem_of_head?_some hc))
        (fun c hc => hno c (mem_of_getLast?_some hc))]
    exact collapseWs_eq_self (hasDoubleWs_eq_false hno)
      (fun c hc hw => absurd hw (by simp [hno c hc]))
  · intro s c hc
    exact (fs_safe_data_facts s).1 c hc
  · intro s
    exact (fs_safe_data_facts s).2.1
  · decide

/-- Witness for C9 at a concrete whitespace-free input. -/
theorem C9_witness : fs_safe_filename "Ab?c*d" = ⟨("Ab?c*d" : String).data.map replChar⟩ :=
  C9_fs_safe_replacement.1 "Ab?c*d" (by decide)

/-- C10: beyond the spec, fs_safe_filename strips leading and trailing
whitespace: its result never begins nor ends with a whitespace character. -/
theorem C10_fs_safe_no_edge_whitespace (s : String) :
    ((fs_safe_filename s).data.head?.all fun c => !isWsChar c) = true
    ∧ ((fs_safe_filename s).data.getLast?.all fun c => !isWsChar c) = true := by
  obtain ⟨-, -, hhead, hlast⟩ := fs_safe_data_facts s
  constructor
  · cases hh : (fs_safe_filename s).data.head? with
    | none => rfl
    | some c => simp [Option.all, hhead c hh]
  · cases hh : (fs_safe_filename s).data.getLast? with
    | none => rfl
    | some c => simp [Option.all, hlast c hh]

/-- Fuel-structural rendering of the decimal digits of a natural number,
least significant digit first; fuel n+1 always suffices. -/
def natDigitsRevAux : Nat → Nat → List Char
  | 0, _ => []
  | fuel+1, n =>
    if n < 10 then [Nat.digitChar n]
    else Nat.digitChar (n % 10) :: natDigitsRevAux fuel (n / 10)

/-- Decimal rendering of a natural number, as produced by the f-string
interpolation of the counter in unique_path. -/
def natRepr (n : Nat) : String := ⟨(natDigitsRevAux (n+1) n).reverse⟩

/-- Decodes a least-significant-first decimal digit list. -/
def valRev : List Char → Nat
  | [] => 0
  | c :: cs => (c.toNat - '0'.toNat) + 10 * valRev cs

theorem digitChar_val : ∀ d, d < 10 → (Nat.digitChar d).toNat - '0'.toNat = d := by decide

theorem valRev_natDigitsRevAux : ∀ fuel n, n < fuel → valRev (natDigitsRevAux fuel n) = n
  | 0, n, h => absurd h (Nat.not_lt_zero n)
  | fuel+1, n, h => by
    unfold natDigitsRevAux
    by_cases h10 : n < 10
    · simp only [h10, if_true]
      simp only [valRev]
      rw [digitChar_val n h10]
      omega
    · simp only [h10, if_false]
      have hdiv : n / 10 < fuel := by
        have h1 : n / 10 < n := Nat.div_lt_self (by omega) (by omega)
        omega
      simp only [valRev]
      rw [digitChar_val (n % 10) (Nat.mod_lt n (by omega)),
        valRev_natDigitsRevAux fuel (n / 10) hdiv]
      omega

theorem natRepr_inj : Function.Injective natRepr := by
  intro m n h
  have hd : (natDigitsRevAux (m+1) m).reverse = (natDigitsRevAux (n+1) n).reverse :=
    congrArg String.data h
  have haux := List.reverse_injective hd
  have hm := valRev_natDigitsRevAux (m+1) m (Nat.lt_succ_self m)
  have hn := valRev_natDigitsRevAux (n+1) n (Nat.lt_succ_self n)
  rw [← hm, ← hn, haux]

theorem stringDataAppend (s t : String) : (s ++ t).data = s.data ++ t.data := rfl

/-- The candidate name "<stem> (i)<suffix>" tried by unique_path. -/
def candName (stem suffix : String) (i : Nat) : String :=
  stem ++ " (" ++ natRepr i ++ ")" ++ suffix

theorem candName_inj (stem suffix : String) : Function.Injective (candName stem suffix) := by
  intro i j h
  have hd : stem.data ++ (" (" : String).data ++ (natRepr i).data
      ++ (")" : String).data ++ suffix.data
      = stem.data ++ (" (" : String).data ++ (natRepr j).data
      ++ (")" : String).data ++ suffix.data := by
    have := congrArg String.data h
    simpa [candName, stringDataAppend] using this
  rw [List.append_assoc (stem.data ++ (" (" : String).data ++ (natRepr i).data),
      List.append_assoc (stem.data ++ (" (" : String).data ++ (natRepr j).data)] at hd
  have h1 := List.append_cancel_right hd
  rw [List.append_assoc stem.data, List.append_assoc stem.data] at h1
  have h2 := List.append_cancel_left h1
  have h3 := List.append_cancel_left h2
  exact natRepr_inj (stringDataEq h3)

/-- The collision-resolution loop of unique_path: starting from counter i,
return the first "<stem> (i)<suffix>" that is not among the existing
names. The loop in the source is unbounded; fuel one larger than the
number of existing entries provably suffices. -/
def searchFrom (existing : List String) (stem suffix : String) : Nat → Nat → Option String
  | 0, _ => none
  | fuel+1, i =>
    if existing.contains (candName stem suffix i) then searchFrom existing stem suffix fuel (i+1)
    else some (candName stem suffix i)

theorem containsIffMem {l : List String} {a : String} : l.contains a = true ↔ a ∈ l :=
  List.elem_iff

/-- Embedding of unique_path over the list of names already present in the
output directory; the target path is given by its stem and suffix, as
split by Path.stem / Path.suffix at the call sites. -/
def unique_path (existing : List String) (stem suffix : String) : String :=
  if existing.contains (stem ++ suffix) then
    (searchFrom existing stem suffix (existing.length + 1) 1).getD (stem ++ suffix)
  else stem ++ suffix

theorem searchFrom_spec (existing : List String) (stem suffix : String) :
    ∀ fuel i c, searchFrom existing stem suffix fuel i = some c →
      ∃ k, c = candName stem suffix (i + k) ∧ c ∉ existing
        ∧ ∀ j, i ≤ j → j < i + k → candName stem suffix j ∈ existing
  | 0, i, c => by intro h; simp [searchFrom] at h
  | fuel+1, i, c => by
    intro h
    unfold searchFrom at h
    by_cases hmem : existing.contains (candName stem suffix i) = true
    · simp only [hmem, if_true] at h
      obtain ⟨k, hk1, hk2, hk3⟩ := searchFrom_spec existing stem suffix fuel (i+1) c h
      refine ⟨k + 1, by rw [hk1]; ring_nf, hk2, ?_⟩
      intro j hj1 hj2
      rcases Nat.eq_or_lt_of_le hj1 with hj | hj
      · rw [← hj]
        exact containsIffMem.mp hmem
      · exact hk3 j hj (by omega)
    · rw [if_neg hmem] at h
      injection h with h
      refine ⟨0, by rw [← h, Nat.add_zero], ?_, by omega⟩
      intro hc
      exact hmem (containsIffMem.mpr (h ▸ hc))

theorem searchFrom_isSome (existing : List String) (stem suffix : String) :
    ∀ fuel i, (∃ k, k < fuel ∧ candName stem suffix (i + k) ∉ existing) →
      (searchFrom existing stem suffix fuel i).isSome = true
  | 0, i, ⟨k, hk, _⟩ => absurd hk (Nat.not_lt_zero k)
  | fuel+1, i, ⟨k, hk, hfree⟩ => by
    unfold searchFrom
    by_cases hmem : existing.contains (candName stem suffix i) = true
    · rw [if_pos hmem]
      have hk0 : k ≠ 0 := by
        intro h0
        subst h0
        exact hfree (by simpa using containsIffMem.mp hmem)
      refine searchFrom_isSome existing stem suffix fuel (i+1) ⟨k - 1, by omega, ?_⟩
      have heq : i + 1 + (k - 1) = i + k := by omega
      rw [heq]
      exact hfree
    · rw [if_neg hmem]
      rfl

theorem exists_free_cand (existing : List String) (stem suffix : String) :
    ∃ k, k < existing.length + 1 ∧ candName stem suffix (1 + k) ∉ existing := by
  by_contra hall
  push_neg at hall
  have hnodup : ((List.range (existing.length + 1)).map
      fun k => candName stem suffix (1 + k)).Nodup := by
    refine List.Nodup.map ?_ (List.nodup_range _)
    intro a b hab
    have h1 := candName_inj stem suffix hab
    omega
  have hsub : ((List.range (existing.length + 1)).map
      fun k => candName stem suffix (1 + k)).toFinset ⊆ existing.toFinset := by
    intro x hx
    rw [List.mem_toFinset] at hx ⊢
    rcases List.mem_map.mp hx with ⟨k, hk, rfl⟩
    exact hall k (List.mem_range.mp hk)
  have h1 : existing.length + 1 ≤ existing.toFinset.card := by
    have hcard : ((List.range (existing.length + 1)).map
        fun k => candName stem suffix (1 + k)).toFinset.card = existing.length + 1 := by
      rw [List.toFinset_card_of_nodup hnodup]
      simp
    rw [← hcard]
    exact Finset.card_le_card hsub
  have h2 : existing.toFinset.card ≤ existing.length := existing.toFinset_card_le
  omega

/-- C4: unique_path never returns a name that already exists; a
collision-free target name is returned unchanged; on a collision the
result is "<stem> (k)<suffix>" where every smaller counter from 1 on was
taken; and a directory already holding "Video.mp4" (and then also
"Video (1).mp4") yields "Video (1).mp4" and then "Video (2).mp4". -/
theorem C4_unique_path (existing : List String) (stem suffix : String) :
    unique_path existing stem suffix ∉ existing
    ∧ ((stem ++ suffix) ∉ existing → unique_path existing stem suffix = stem ++ suffix)
    ∧ ((stem ++ suffix) ∈ existing →
        ∃ k, unique_path existing stem suffix = candName stem suffix (1 + k)
          ∧ ∀ j, 1 ≤ j → j < 1 + k → candName stem suffix j ∈ existing)
    ∧ unique_path ["Video.mp4"] "Video" ".mp4" = "Video (1).mp4"
    ∧ unique_path ["Video.mp4", "Video (1).mp4"] "Video" ".mp4" = "Video (2).mp4" := by
  refine ⟨?_, ?_, ?_, by decide, by decide⟩
  · by_cases hc : existing.contains (stem ++ suffix) = true
    · unfold unique_path
      rw [if_pos hc]
      obtain ⟨k, hk, hfreek⟩ := exists_free_cand existing stem suffix
      have hsome := searchFrom_isSome existing stem suffix (existing.length + 1) 1
        ⟨k, hk, hfreek⟩
      obtain ⟨c, hcs⟩ := Option.isSome_iff_exists.mp hsome
      rw [hcs]
      obtain ⟨k2, _, hnotmem, _⟩ := searchFrom_spec existing stem suffix _ 1 c hcs
      simpa using hnotmem
    · unfold unique_path
      rw [if_neg hc]
      intro hmem
      exact hc (containsIffMem.mpr hmem)
  · intro hn
    unfold unique_path
    rw [if_neg (fun h => hn (containsIffMem.mp h))]
  · intro hmem
    unfold unique_path
    rw [if_pos (containsIffMem.mpr hmem)]
    obtain ⟨k, hk, hfreek⟩ := exists_free_cand existing stem suffix
    have hsome := searchFrom_isSome existing stem suffix (existing.length + 1) 1
      ⟨k, hk, hfreek⟩
    obtain ⟨c, hcs⟩ := Option.isSome_iff_exists.mp hsome
    rw [hcs]
    obtain ⟨k2, hck, _, hprev⟩ := searchFrom_spec existing stem suffix _ 1 c hcs
    exact ⟨k2, by simpa using hck, hprev⟩

/-- Witness for C4: a collision-free name is returned unchanged. -/
theorem C4_witness : unique_path ["B.mp4"] "A" ".mp4" = "A" ++ ".mp4" :=
  (C4_unique_path ["B.mp4"] "A" ".mp4").2.1 (by decide)

/-- A stream descriptor as exposed by the hosting-site client library:
itag, container subtype, progressive flag, the two track-inclusion flags,
and the resolution / audio-bitrate labels (absent when the corresponding
track is absent). -/
structure StreamDesc where
  itag : Nat
  subtype : String
  progressive : Bool
  includesVideo : Bool
  includesAudio : Bool
  resolution : Option String
  abr : Option String
deriving DecidableEq

/-- adaptive=True of the query library: not progressive. -/
def is_adaptive (s : StreamDesc) : Bool := !s.progressive

/-- only_audio=True of the query library: audio track and no video track. -/
def only_audio (s : StreamDesc) : Bool := s.includesAudio && !s.includesVideo

/-- only_video=True of the query library: video track and no audio track. -/
def only_video (s : StreamDesc) : Bool := s.includesVideo && !s.includesAudio

/-- The numeric sort key the query library derives from an attribute
string: the integer formed by its digits ("720p" yields 720, "128kbps"
yields 128). Labels are assumed to contain at least one digit, which
holds for all resolution/bitrate labels the client produces. -/
def digitsVal (s : String) : Nat :=
  (s.data.filter Char.isDigit).foldl (fun acc c => 10 * acc + (c.toNat - '0'.toNat)) 0

/-- Stable insertion into an ascending list: the new element passes the
strictly smaller keys and stops before the first key at least as large,
matching the stability of the sort used by the query library. -/
def insertAsc {α : Type} (val : α → Nat) (x : α) : List α → List α
  | [] => [x]
  | t :: ts => if val t < val x then t :: insertAsc val x ts else x :: t :: ts

/-- Stable ascending sort by a numeric key. -/
def sortAsc {α : Type} (val : α → Nat) : List α → List α
  | [] => []
  | x :: xs => insertAsc val x (sortAsc val xs)

/-- The element a stable ascending sort followed by reversal yields first:
the element with the largest key, ties resolved in favour of the
latest-listed element. -/
def lastMax {α : Type} (val : α → Nat) : List α → Option α
  | [] => none
  | x :: xs =>
    match lastMax val xs with
    | none => some x
    | some t => if val t < val x then some x else some t

/-- Embedding of .order_by(attribute).desc().first() of the query
library: drop the streams lacking the attribute, sort ascending by the
integer formed from the attribute's digits (a stable sort), reverse the
list, and take its head. -/
def order_by_desc_first (attr : StreamDesc → Option String)
    (l : List StreamDesc) : Option StreamDesc :=
  ((sortAsc (fun s => digitsVal ((attr s).getD ""))
    (l.filter fun s => (attr s).isSome)).reverse).head?

theorem mem_insertAsc {α : Type} {val : α → Nat} {x y : α} :
    ∀ {M : List α}, y ∈ insertAsc val x M → y = x ∨ y ∈ M
  | [], h => by simpa [insertAsc] using h
  | t :: ts, h => by
    unfold insertAsc at h
    by_cases hlt : val t < val x
    · rw [if_pos hlt] at h
      rcases List.mem_cons.mp h with h1 | h1
      · exact Or.inr (h1 ▸ List.mem_cons_self t ts)
      · rcases mem_insertAsc h1 with h2 | h2
        · exact Or.inl h2
        · exact Or.inr (List.mem_cons_of_mem _ h2)
    · rw [if_neg hlt] at h
      rcases List.mem_cons.mp h with h1 | h1
      · exact Or.inl h1
      · exact Or.inr h1

theorem insertAsc_ne_nil {α : Type} (val : α → Nat) (x : α) :
    ∀ (M : List α), insertAsc val x M ≠ []
  | [] => by simp [insertAsc]
  | t :: ts => by
    unfold insertAsc
    by_cases hlt : val t < val x
    · rw [if_pos hlt]; simp
    · rw [if_neg hlt]; simp

theorem insertAsc_sorted {α : Type} (val : α → Nat) (x : α) :
    ∀ {M : List α}, M.Pairwise (fun a b => val a ≤ val b) →
      (insertAsc val x M).Pairwise (fun a b => val a ≤ val b)
  | [], _ => by simp [insertAsc]
  | t :: ts, hM => by
    rw [List.pairwise_cons] at hM
    obtain ⟨hthead, hts⟩ := hM
    unfold insertAsc
    by_cases hlt : val t < val x
    · rw [if_pos hlt]
      rw [List.pairwise_cons]
      refine ⟨?_, insertAsc_sorted val x hts⟩
      intro y hy
      rcases mem_insertAsc hy with h1 | h1
      · rw [h1]; omega
      · exact hthead y h1
    · rw [if_neg hlt]
      rw [List.pairwise_cons]
      refine ⟨?_, by rw [List.pairwise_cons]; exact ⟨hthead, hts⟩⟩
      intro y hy
      rcases List.mem_cons.mp hy with h1 | h1
      · rw [h1]; omega
      · have := hthead y h1
        omega

theorem sortAsc_sorted {α : Type} (val : α → Nat) :
    ∀ (L : List α), (sortAsc val L).Pairwise (fun a b => val a ≤ val b)
  | [] => by simp [sortAsc]
  | x :: xs => insertAsc_sorted val x (sortAsc_sorted val xs)

theorem getLast?_insertAsc_some {α : Type} (val : α → Nat) (x : α) :
    ∀ {M : List α} {z : α}, M.Pairwise (fun a b => val a ≤ val b) →
      M.getLast? = some z →
      (insertAsc val x M).getLast? = if val z < val x then some x else some z
  | [], z, _, hz => by simp at hz
  | t :: ts, z, hM, hz => by
    rw [List.pairwise_cons] at hM
    obtain ⟨hthead, hts⟩ := hM
    cases ts with
    | nil =>
      simp only [List.getLast?_singleton, Option.some.injEq] at hz
      subst hz
      unfold insertAsc
      by_cases hlt : val t < val x
      · rw [if_pos hlt, if_pos hlt]
        simp [insertAsc]
      · rw [if_neg hlt, if_neg hlt]
        rw [getLast?_cons_of_ne (by simp)]
        rfl
    | cons b bs =>
      rw [List.getLast?_cons_cons] at hz
      unfold insertAsc
      by_cases hlt : val t < val x
      · rw [if_pos hlt]
        rw [getLast?_cons_of_ne (insertAsc_ne_nil val x (b :: bs))]
        exact getLast?_insertAsc_some val x hts hz
      · rw [if_neg hlt]
        rw [getLast?_cons_of_ne (by simp), List.getLast?_cons_cons, hz]
        have hvz : val t ≤ val z := hthead z (mem_of_getLast?_some hz)
        rw [if_neg (by omega)]

theorem getLast?_sortAsc {α : Type} (val : α → Nat) :
    ∀ (L : List α), (sortAsc val L).getLast? = lastMax val L
  | [] => rfl
  | x :: xs => by
    have hIH := getLast?_sortAsc val xs
    show (insertAsc val x (sortAsc val xs)).getLast? = lastMax val (x :: xs)
    have hlm : lastMax val (x :: xs) =
        (match lastMax val xs with
          | none => some x
          | some t => if val t < val x then some x else some t) := rfl
    cases hlast : (sortAsc val xs).getLast? with
    | none =>
      have hnil : sortAsc val xs = [] := List.getLast?_eq_none_iff.mp hlast
      rw [hlm, ← hIH, hlast, hnil]
      simp [insertAsc]
    | some z =>
      rw [getLast?_insertAsc_some val x (sortAsc_sorted val xs) hlast]
      rw [hlm, ← hIH, hlast]

theorem order_by_desc_first_eq (attr : StreamDesc → Option String) (l : List StreamDesc) :
    order_by_desc_first attr l
      = lastMax (fun s => digitsVal ((attr s).getD ""))
          (l.filter fun s => (attr s).isSome) := by
  unfold order_by_desc_first
  rw [List.head?_reverse]
  exact getLast?_sortAsc _ _

theorem lastMax_cons {α : Type} (val : α → Nat) (x : α) (xs : List α) :
    lastMax val (x :: xs) =
      (match lastMax val xs with
        | none => some x
        | some t => if val t < val x then some x else some t) := rfl

theorem lastMax_eq_none_iff {α : Type} {val : α → Nat} :
    ∀ {L : List α}, lastMax val L = none ↔ L = []
  | [] => by simp [lastMax]
  | x :: xs => by
    rw [lastMax_cons]
    constructor
    · intro h
      exfalso
      cases hxs : lastMax val xs with
      | none =>
        rw [hxs] at h
        exact Option.noConfusion h
      | some t =>
        rw [hxs] at h
        have h2 : (if val t < val x then some x else some t) = none := h
        by_cases hlt : val t < val x
        · rw [if_pos hlt] at h2; exact Option.noConfusion h2
        · rw [if_neg hlt] at h2; exact Option.noConfusion h2
    · intro h
      exact List.noConfusion h

/-- What .order_by(a).desc().first() returns: the latest-listed element
among those attaining the maximal key. -/
theorem lastMax_spec {α : Type} {val : α → Nat} :
    ∀ {L : List α} {s : α}, lastMax val L = some s →
      s ∈ L ∧ (∀ t ∈ L, val t ≤ val s)
        ∧ ∃ L1 L2, L = L1 ++ s :: L2 ∧ ∀ t ∈ L2, val t < val s
  | [], s, h => by simp [lastMax] at h
  | x :: xs, s, h => by
    rw [lastMax_cons] at h
    cases hxs : lastMax val xs with
    | none =>
      rw [hxs] at h
      have h2 : some x = some s := h
      injection h2 with h2
      subst h2
      have hnil : xs = [] := lastMax_eq_none_iff.mp hxs
      subst hnil
      exact ⟨by simp, by simp, [], [], by simp, by simp⟩
    | some t =>
      rw [hxs] at h
      have h2 : (if val t < val x then some x else some t) = some s := h
      obtain ⟨htmem, htmax, L1, L2, hdec, hlt2⟩ := lastMax_spec hxs
      by_cases hlt : val t < val x
      · rw [if_pos hlt] at h2
        injection h2 with h2
        subst h2
        refine ⟨by simp, ?_, [], xs, by simp, ?_⟩
        · intro u hu
          rcases List.mem_cons.mp hu with h3 | h3
          · rw [h3]
          · have := htmax u h3
            omega
        · intro u hu
          have := htmax u hu
          omega
      · rw [if_neg hlt] at h2
        injection h2 with h2
        subst h2
        refine ⟨List.mem_cons_of_mem _ htmem, ?_, x :: L1, L2, by rw [hdec]; rfl, hlt2⟩
        intro u hu
        rcases List.mem_cons.mp hu with h3 | h3
        · rw [h3]
          omega
        · exact htmax u h3

theorem head?_filter_eq_find? {α : Type} (p : α → Bool) :
    ∀ (l : List α), (l.filter p).head? = l.find? p
  | [] => rfl
  | x :: xs => by
    rw [List.filter_cons, List.find?_cons]
    by_cases hp : p x = true
    · rw [if_pos hp]
      cases hp2 : p x with
      | true => rfl
      | false => rw [hp2] at hp; exact absurd hp (by simp)
    · rw [if_neg hp]
      cases hp2 : p x with
      | true => rw [hp2] at hp; exact absurd rfl hp
      | false => exact head?_filter_eq_find? p xs

/-- streams.get_by_itag: the query library builds a dict keyed by itag
(later occurrences overwrite earlier ones) and looks the id up. -/
def get_by_itag (l : List StreamDesc) (i : Nat) : Option StreamDesc :=
  l.foldl (fun acc s => if s.itag = i then some s else acc) none

/-- quality.lower() (ASCII case folding; quality strings are ASCII). -/
def pyLower (s : String) : String := ⟨s.data.map Char.toLower⟩

/-- The check quality.lower() in ("audio", "audio-only"). -/
def qualityIsAudio (q : String) : Bool :=
  pyLower q == "audio" || pyLower q == "audio-only"

/-- The anchored pattern of one-or-more digits followed by p that selects
the explicit-resolution branch. -/
def isResQuality (q : String) : Bool :=
  match q.data.reverse with
  | c :: rest => c == 'p' && !rest.isEmpty && rest.all Char.isDigit
  | [] => false

/-- The selector's outcome: one progressive or audio-only stream, or a
(video, audio) adaptive pair. -/
inductive SelectionResult
  | single (s : StreamDesc)
  | pair (video audio : StreamDesc)
deriving DecidableEq

/-- The errors the selection code raises: unknownItag surfaces as a
ValueError, the others as RuntimeErrors. -/
inductive SelErr
  | unknownItag
  | noAudioForItag
  | noAudioAvailable
  | noSuitableForRes
  | noSuitableBest
deriving DecidableEq

/-- The explicit-itag branch of download_video: look the itag up; a
progressive stream is returned alone, any other stream is paired with the
highest-bitrate audio-only stream. -/
def selectItagBranch (catalog : List StreamDesc) (i : Nat) : Except SelErr SelectionResult :=
  match get_by_itag catalog i with
  | none => .error .unknownItag
  | some stream =>
    if stream.progressive then .ok (.single stream)
    else
      match order_by_desc_first (fun s => s.abr) (catalog.filter only_audio) with
      | none => .error .noAudioForItag
      | some audio => .ok (.pair stream audio)

/-- The audio-quality branch: the highest-bitrate audio-only stream. -/
def selectAudioBranch (catalog : List StreamDesc) : Except SelErr SelectionResult :=
  match order_by_desc_first (fun s => s.abr) (catalog.filter only_audio) with
  | none => .error .noAudioAvailable
  | some audio => .ok (.single audio)

/-- The digits+p quality branch: a progressive stream at the requested
resolution (mp4 first, then any container); otherwise an adaptive
video-only stream at the requested resolution in mp4, falling back to the
highest-resolution adaptive video-only stream, paired with the
highest-bitrate audio-only stream. -/
def selectResBranch (catalog : List StreamDesc) (quality : String) :
    Except SelErr SelectionResult :=
  match (catalog.filter fun s =>
      s.progressive && s.subtype == "mp4" && s.resolution == some quality).head?
    <|> (catalog.filter fun s => s.progressive && s.resolution == some quality).head? with
  | some p => .ok (.single p)
  | none =>
    match (catalog.filter fun s => is_adaptive s && only_video s
          && s.resolution == some quality && s.subtype == "mp4").head?
        <|> order_by_desc_first (fun s => s.resolution)
          (catalog.filter fun s => is_adaptive s && only_video s),
      order_by_desc_first (fun s => s.abr) (catalog.filter only_audio) with
    | some v, some a => .ok (.pair v a)
    | _, _ => .error .noSuitableForRes

/-- The default best branch: the highest-resolution progressive mp4
stream; otherwise the highest-resolution adaptive video-only mp4 stream
(any container as fallback) paired with the highest-bitrate audio-only
mp4 stream (any container as fallback). -/
def selectBestBranch (catalog : List StreamDesc) : Except SelErr SelectionResult :=
  match order_by_desc_first (fun s => s.resolution)
      (catalog.filter fun s => s.progressive && s.subtype == "mp4") with
  | some p => .ok (.single p)
  | none =>
    match (order_by_desc_first (fun s => s.resolution)
          (catalog.filter fun s => is_adaptive s && only_video s && s.subtype == "mp4"))
        <|> order_by_desc_first (fun s => s.resolution)
          (catalog.filter fun s => is_adaptive s && only_video s),
      (order_by_desc_first (fun s => s.abr)
          (catalog.filter fun s => only_audio s && s.subtype == "mp4"))
        <|> order_by_desc_first (fun s => s.abr) (catalog.filter only_audio) with
    | some v, some a => .ok (.pair v a)
    | _, _ => .error .noSuitableBest

/-- The stream-selection decisions of download_video, extracted from the
interleaved download calls: which stream or pair each branch picks from
the catalog, and which error it raises otherwise. Branch order follows
the source: explicit itag, then audio quality, then a digits+p quality,
then the default best branch (any other quality string falls through to
the best branch unchecked). -/
def select (catalog : List StreamDesc) (quality : String) (itag : Option Nat) :
    Except SelErr SelectionResult :=
  match itag with
  | some i => selectItagBranch catalog i
  | none =>
    if qualityIsAudio quality then selectAudioBranch catalog
    else if isResQuality quality then selectResBranch catalog quality
    else selectBestBranch catalog

deriving instance DecidableEq for Except

theorem isResQuality_not_audio {q : String} (h : isResQuality q = true) :
    qualityIsAudio q = false := by
  have hmain : ∀ A : String, A.data.reverse.head? ≠ some 'p' → (pyLower q == A) = false := by
    intro A hA
    apply beq_eq_false_iff_ne.mpr
    intro heq
    apply hA
    have hdata : q.data.reverse.map Char.toLower = A.data.reverse := by
      have h1 : q.data.map Char.toLower = A.data := congrArg String.data heq
      rw [← h1, List.map_reverse]
    unfold isResQuality at h
    cases hrev : q.data.reverse with
    | nil =>
      rw [hrev] at h
      exact absurd h (by simp)
    | cons c rest =>
      rw [hrev] at h
      have h2 : (c == 'p' && !rest.isEmpty && rest.all Char.isDigit) = true := h
      have hc : c = 'p' := by
        have := Bool.and_eq_true_iff.mp (Bool.and_eq_true_iff.mp h2).1
        exact beq_iff_eq.mp this.1
      subst hc
      rw [hrev] at hdata
      rw [List.map_cons] at hdata
      rw [← hdata]
      simp
  unfold qualityIsAudio
  rw [hmain "audio" (by decide), hmain "audio-only" (by decide)]
  rfl

theorem select_res_eq {catalog : List StreamDesc} {q : String}
    (hr : isResQuality q = true) :
    select catalog q none = selectResBranch catalog q := by
  unfold select
  rw [if_neg (by simp [isResQuality_not_audio hr]), if_pos hr]

theorem select_best_eq {catalog : List StreamDesc} {q : String}
    (ha : qualityIsAudio q = false) (hr : isResQuality q = false) :
    select catalog q none = selectBestBranch catalog := by
  unfold select
  rw [if_neg (by simp [ha]), if_neg (by simp [hr])]

/-- An audio-only adaptive descriptor (audio/mp4, 128kbps), itag 140. -/
def audioA : StreamDesc :=
  ⟨140, "mp4", false, false, true, none, some "128kbps"⟩

/-- An audio-only adaptive descriptor (audio/webm, 160kbps), itag 251. -/
def audioB : StreamDesc :=
  ⟨251, "webm", false, false, true, none, some "160kbps"⟩

/-- C1 (code bug): requesting the itag of an audio-only descriptor makes
the itag branch pair that audio-only descriptor as the VIDEO half of an
adaptive pair with the best audio stream: the selection outcome violates
the invariant that the video half is never audio-only and that the two
halves have complementary track kinds. -/
theorem C1_itag_audio_pair_bug :
    select [audioA, audioB] "best" (some 140) = .ok (.pair audioA audioB)
    ∧ only_audio audioA = true ∧ only_video audioA = false
    ∧ only_audio audioB = true := by decide

/-- An audio-only descriptor in the mp4/m4a container family, 128kbps. -/
def audM4a : StreamDesc :=
  ⟨139, "mp4", false, false, true, none, some "128kbps"⟩

/-- An audio-only webm descriptor with the same numeric bitrate. -/
def audWebm : StreamDesc :=
  ⟨249, "webm", false, false, true, none, some "128kbps"⟩

/-- C7 counterexample: two audio-only descriptors tie on the numeric
bitrate, the mp4/m4a one listed first; the audio branch picks the
last-listed webm descriptor, so ties are neither broken in favour of
mp4/m4a nor in favour of the first-seen descriptor. -/
theorem C7_counterexample :
    select [audM4a, audWebm] "audio" none = .ok (.single audWebm)
    ∧ digitsVal ((audM4a.abr).getD "") = digitsVal ((audWebm.abr).getD "")
    ∧ audM4a.subtype = "mp4" ∧ audWebm.subtype ≠ "mp4"
    ∧ audM4a ≠ audWebm := by decide

/-- C7 amended: every resolution/bitrate comparison of the selection
(order_by(attr).desc().first()) orders by the numeric value descending and
breaks ties by catalog order with the LAST-seen descriptor winning: the
returned descriptor attains the maximal key and every later-listed
descriptor carrying the attribute has a strictly smaller key. Container
preference acts only through staged filters, never inside a comparison;
selection remains a deterministic function of request and catalog. -/
theorem C7_order_by_last_max (attr : StreamDesc → Option String)
    (l : List StreamDesc) (s : StreamDesc)
    (h : order_by_desc_first attr l = some s) :
    s ∈ l ∧ (attr s).isSome = true
    ∧ (∀ t ∈ l, (attr t).isSome = true →
        digitsVal ((attr t).getD "") ≤ digitsVal ((attr s).getD ""))
    ∧ ∃ l1 l2, l.filter (fun t => (attr t).isSome) = l1 ++ s :: l2
        ∧ ∀ t ∈ l2, digitsVal ((attr t).getD "") < digitsVal ((attr s).getD "") := by
  rw [order_by_desc_first_eq] at h
  obtain ⟨hmem, hmax, l1, l2, hdec, hlast⟩ := lastMax_spec h
  have hmem2 := List.mem_filter.mp hmem
  refine ⟨hmem2.1, hmem2.2, ?_, l1, l2, hdec, hlast⟩
  intro t ht hsome
  exact hmax t (List.mem_filter.mpr ⟨ht, hsome⟩)

/-- Witness for C7's amended statement on a concrete catalog with a
bitrate tie. -/
theorem C7_witness :
    audWebm ∈ [audM4a, audWebm] ∧ ((audWebm.abr).isSome = true)
    ∧ (∀ t ∈ [audM4a, audWebm], (t.abr).isSome = true →
        digitsVal ((t.abr).getD "") ≤ digitsVal ((audWebm.abr).getD ""))
    ∧ ∃ l1 l2, [audM4a, audWebm].filter (fun t => (t.abr).isSome) = l1 ++ audWebm :: l2
        ∧ ∀ t ∈ l2, digitsVal ((t.abr).getD "") < digitsVal ((audWebm.abr).getD "") :=
  C7_order_by_last_max (fun s => s.abr) [audM4a, audWebm] audWebm (by decide)

/-- A progressive 720p descriptor in a webm container. -/
def progWebm : StreamDesc :=
  ⟨22, "webm", true, true, true, some "720p", some "192kbps"⟩

/-- An adaptive video-only 720p descriptor in an mp4 container. -/
def vidMp4 : StreamDesc :=
  ⟨136, "mp4", false, true, false, some "720p", none⟩

/-- C6 counterexample: a catalog whose only progressive descriptor is in
a non-mp4 container: Best selection returns an adaptive pair even though
a progressive descriptor (at the very resolution of the chosen video leg)
is present. -/
theorem C6_counterexample :
    select [progWebm, vidMp4, audM4a] "best" none = .ok (.pair vidMp4 audM4a)
    ∧ progWebm.progressive = true
    ∧ progWebm ∈ [progWebm, vidMp4, audM4a]
    ∧ progWebm.resolution = vidMp4.resolution := by decide

/-- C6 amended: ExplicitResolution selection with a progressive descriptor
at the requested resolution (any container) returns a single progressive
stream at that resolution, never an adaptive pair; Best selection returns
a single progressive stream whenever a progressive MP4 descriptor exists,
but considers no other container for its progressive choice. -/
theorem C6_progressive_priority :
    (∀ (catalog : List StreamDesc) (q : String), isResQuality q = true →
      (∃ p ∈ catalog, p.progressive = true ∧ p.resolution = some q) →
      ∃ p, select catalog q none = .ok (.single p)
        ∧ p ∈ catalog ∧ p.progressive = true ∧ p.resolution = some q)
    ∧ (∀ catalog : List StreamDesc, (∃ p ∈ catalog,
        (p.progressive && p.subtype == "mp4" && (p.resolution).isSome) = true) →
      ∃ p, select catalog "best" none = .ok (.single p)
        ∧ p ∈ catalog ∧ p.progressive = true ∧ p.subtype = "mp4") := by
  constructor
  · intro catalog q hres hex
    rw [select_res_eq hres]
    unfold selectResBranch
    cases hA : (catalog.filter fun s =>
        s.progressive && s.subtype == "mp4" && s.resolution == some q).head? with
    | some p =>
      rw [Option.some_orElse]
      rw [head?_filter_eq_find?] at hA
      have hpred := List.find?_some hA
      simp only [Bool.and_eq_true, beq_iff_eq] at hpred
      exact ⟨p, rfl, List.mem_of_find?_eq_some hA, hpred.1.1, hpred.2⟩
    | none =>
      rw [Option.none_orElse]
      have hB : ((catalog.filter fun s =>
          s.progressive && s.resolution == some q).head?).isSome = true := by
        rw [head?_filter_eq_find?, List.find?_isSome]
        obtain ⟨p0, hp0, hprog, hres0⟩ := hex
        exact ⟨p0, hp0, by simp [hprog, hres0]⟩
      obtain ⟨p, hp⟩ := Option.isSome_iff_exists.mp hB
      rw [hp]
      rw [head?_filter_eq_find?] at hp
      have hpred := List.find?_some hp
      simp only [Bool.and_eq_true, beq_iff_eq] at hpred
      exact ⟨p, rfl, List.mem_of_find?_eq_some hp, hpred.1, hpred.2⟩
  · intro catalog hex
    rw [select_best_eq (by decide) (by decide)]
    unfold selectBestBranch
    simp only [order_by_desc_first_eq]
    have hne : ((catalog.filter fun s => s.progressive && s.subtype == "mp4").filter
        fun s => (s.resolution).isSome) ≠ [] := by
      obtain ⟨p0, hp0, hprops⟩ := hex
      simp only [Bool.and_eq_true, beq_iff_eq] at hprops
      intro hnil
      rw [List.filter_eq_nil_iff] at hnil
      refine hnil p0 (List.mem_filter.mpr ⟨hp0, ?_⟩) ?_
      · simp [hprops.1.1, hprops.1.2]
      · simp [hprops.2]
    cases hbp : lastMax (fun s => digitsVal ((s.resolution).getD ""))
        ((catalog.filter fun s => s.progressive && s.subtype == "mp4").filter
          fun s => (s.resolution).isSome) with
    | none => exact absurd (lastMax_eq_none_iff.mp hbp) hne
    | some p =>
      obtain ⟨hmem, -, -⟩ := lastMax_spec hbp
      have hm1 := List.mem_filter.mp hmem
      have hm2 := List.mem_filter.mp hm1.1
      have hprops := hm2.2
      simp only [Bool.and_eq_true, beq_iff_eq] at hprops
      exact ⟨p, rfl, hm2.1, hprops.1, hprops.2⟩

/-- Witness for C6's amended statement. -/
theorem C6_witness :
    ∃ p, select [progWebm, vidMp4, audM4a] "720p" none = .ok (.single p)
      ∧ p ∈ [progWebm, vidMp4, audM4a] ∧ p.progressive = true
      ∧ p.resolution = some "720p" :=
  C6_progressive_priority.1 [progWebm, vidMp4, audM4a] "720p" (by decide)
    ⟨progWebm, by decide, by decide, by decide⟩

/-- C5: for an ExplicitResolution request with no progressive descriptor
at that resolution, selection returns an adaptive pair whose video leg is
the mp4 adaptive video-only descriptor at the requested resolution when
one exists and otherwise a highest-resolution adaptive video-only
descriptor, paired with a highest-bitrate audio-only descriptor; it fails
exactly when the video leg or the audio leg is unobtainable. Catalogs are
assumed well-formed: a stream carrying a video (resp. audio) track
carries a resolution (resp. bitrate) label. -/
theorem C5_explicit_resolution_fallback (catalog : List StreamDesc) (q : String)
    (hres : isResQuality q = true)
    (hwf : ∀ s ∈ catalog, (s.includesVideo = true → (s.resolution).isSome = true)
        ∧ (s.includesAudio = true → (s.abr).isSome = true))
    (hnoprog : ∀ s ∈ catalog, ¬(s.progressive = true ∧ s.resolution = some q)) :
    ((∃ v ∈ catalog, (is_adaptive v && only_video v) = true) →
      (∃ a ∈ catalog, only_audio a = true) →
      ∃ v a, select catalog q none = .ok (.pair v a)
        ∧ v ∈ catalog ∧ (is_adaptive v && only_video v) = true
        ∧ ((∃ w ∈ catalog, (is_adaptive w && only_video w
              && w.resolution == some q && w.subtype == "mp4") = true) →
            v.resolution = some q ∧ v.subtype = "mp4")
        ∧ ((¬∃ w ∈ catalog, (is_adaptive w && only_video w
              && w.resolution == some q && w.subtype == "mp4") = true) →
            ∀ w ∈ catalog, (is_adaptive w && only_video w) = true →
              digitsVal ((w.resolution).getD "") ≤ digitsVal ((v.resolution).getD ""))
        ∧ a ∈ catalog ∧ only_audio a = true
        ∧ (∀ b ∈ catalog, only_audio b = true →
            digitsVal ((b.abr).getD "") ≤ digitsVal ((a.abr).getD "")))
    ∧ (((¬∃ v ∈ catalog, (is_adaptive v && only_video v) = true)
        ∨ (¬∃ a ∈ catalog, only_audio a = true)) →
      select catalog q none = .error .noSuitableForRes) := by
  rw [select_res_eq hres]
  unfold selectResBranch
  have hA : (catalog.filter fun s =>
      s.progressive && s.subtype == "mp4" && s.resolution == some q).head? = none := by
    rw [head?_filter_eq_find?, List.find?_eq_none]
    intro x hx hpx
    simp only [Bool.and_eq_true, beq_iff_eq] at hpx
    exact hnoprog x hx ⟨hpx.1.1, hpx.2⟩
  have hB : (catalog.filter fun s =>
      s.progressive && s.resolution == some q).head? = none := by
    rw [head?_filter_eq_find?, List.find?_eq_none]
    intro x hx hpx
    simp only [Bool.and_eq_true, beq_iff_eq] at hpx
    exact hnoprog x hx ⟨hpx.1, hpx.2⟩
  rw [hA, Option.none_orElse, hB]
  simp only [order_by_desc_first_eq]
  constructor
  · intro hv hexa
    obtain ⟨v0, hv0mem, hv0⟩ := hv
    obtain ⟨a0, ha0mem, ha0⟩ := hexa
    have ha0abr : (a0.abr).isSome = true := by
      have := (hwf a0 ha0mem).2
      unfold only_audio at ha0
      simp only [Bool.and_eq_true] at ha0
      exact this ha0.1
    have haane : ((catalog.filter only_audio).filter fun s => (s.abr).isSome) ≠ [] := by
      intro hnil
      rw [List.filter_eq_nil_iff] at hnil
      exact hnil a0 (List.mem_filter.mpr ⟨ha0mem, ha0⟩) ha0abr
    cases haa : lastMax (fun s => digitsVal ((s.abr).getD ""))
        ((catalog.filter only_audio).filter fun s => (s.abr).isSome) with
    | none => exact absurd (lastMax_eq_none_iff.mp haa) haane
    | some a =>
      obtain ⟨hamem, hamax, -⟩ := lastMax_spec haa
      have ham1 := List.mem_filter.mp hamem
      have ham2 := List.mem_filter.mp ham1.1
      have hamaxcat : ∀ b ∈ catalog, only_audio b = true →
          digitsVal ((b.abr).getD "") ≤ digitsVal ((a.abr).getD "") := by
        intro b hb hob
        have hbabr : (b.abr).isSome = true := by
          have := (hwf b hb).2
          unfold only_audio at hob
          simp only [Bool.and_eq_true] at hob
          exact this hob.1
        exact hamax b (List.mem_filter.mpr ⟨List.mem_filter.mpr ⟨hb, hob⟩, hbabr⟩)
      cases hA2 : (catalog.filter fun s => is_adaptive s && only_video s
          && s.resolution == some q && s.subtype == "mp4").head? with
      | some v =>
        rw [Option.some_orElse]
        rw [head?_filter_eq_find?] at hA2
        have hpred := List.find?_some hA2
        have hvmem := List.mem_of_find?_eq_some hA2
        simp only [Bool.and_eq_true, beq_iff_eq] at hpred
        refine ⟨v, a, rfl, hvmem, ?_, ?_, ?_, ham2.1, ham2.2, hamaxcat⟩
        · exact Bool.and_eq_true_iff.mpr ⟨hpred.1.1.1, hpred.1.1.2⟩
        · intro _
          exact ⟨hpred.1.2, hpred.2⟩
        · intro hn
          exact absurd ⟨v, hvmem, by
            simp only [Bool.and_eq_true, beq_iff_eq]
            exact hpred⟩ hn
      | none =>
        rw [Option.none_orElse]
        have hv0res : (v0.resolution).isSome = true := by
          have := (hwf v0 hv0mem).1
          unfold only_video at hv0
          simp only [Bool.and_eq_true] at hv0
          exact this hv0.2.1
        have hvne : ((catalog.filter fun s => is_adaptive s && only_video s).filter
            fun s => (s.resolution).isSome) ≠ [] := by
          intro hnil
          rw [List.filter_eq_nil_iff] at hnil
          exact hnil v0 (List.mem_filter.mpr ⟨hv0mem, hv0⟩) hv0res
        cases hvv : lastMax (fun s => digitsVal ((s.resolution).getD ""))
            ((catalog.filter fun s => is_adaptive s && only_video s).filter
              fun s => (s.resolution).isSome) with
        | none => exact absurd (lastMax_eq_none_iff.mp hvv) hvne
        | some v =>
          obtain ⟨hvmem, hvmax, -⟩ := lastMax_spec hvv
          have hvm1 := List.mem_filter.mp hvmem
          have hvm2 := List.mem_filter.mp hvm1.1
          refine ⟨v, a, rfl, hvm2.1, hvm2.2, ?_, ?_, ham2.1, ham2.2, hamaxcat⟩
          · intro hexw
            obtain ⟨w, hwmem, hwpred⟩ := hexw
            rw [head?_filter_eq_find?, List.find?_eq_none] at hA2
            exact absurd hwpred (hA2 w hwmem)
          · intro _ w hw hwp
            have hwres : (w.resolution).isSome = true := by
              have := (hwf w hw).1
              unfold only_video at hwp
              simp only [Bool.and_eq_true] at hwp
              exact this hwp.2.1
            exact hvmax w (List.mem_filter.mpr ⟨List.mem_filter.mpr ⟨hw, hwp⟩, hwres⟩)
  · intro hmiss
    rcases hmiss with hnov | hnoa
    · have hA2 : (catalog.filter fun s => is_adaptive s && only_video s
          && s.resolution == some q && s.subtype == "mp4").head? = none := by
        rw [head?_filter_eq_find?, List.find?_eq_none]
        intro x hx hpx
        simp only [Bool.and_eq_true] at hpx
        exact hnov ⟨x, hx, Bool.and_eq_true_iff.mpr ⟨hpx.1.1.1, hpx.1.1.2⟩⟩
      have hfilv : (catalog.filter fun s => is_adaptive s && only_video s) = [] := by
        rw [List.filter_eq_nil_iff]
        intro x hx hpx
        exact hnov ⟨x, hx, hpx⟩
      rw [hA2, Option.none_orElse, hfilv]
      rfl
    · have hfila : catalog.filter only_audio = [] := by
        rw [List.filter_eq_nil_iff]
        intro x hx hpx
        exact hnoa ⟨x, hx, hpx⟩
      rw [hfila]
      cases hva : (catalog.filter fun s => is_adaptive s && only_video s
            && s.resolution == some q && s.subtype == "mp4").head?
          <|> lastMax (fun s => digitsVal ((s.resolution).getD ""))
            ((catalog.filter fun s => is_adaptive s && only_video s).filter
              fun s => (s.resolution).isSome) with
      | none => rfl
      | some v => rfl

/-- An adaptive video-only 1080p descriptor in a webm container. -/
def vidWebm1080 : StreamDesc :=
  ⟨248, "webm", false, true, false, some "1080p", none⟩

/-- Witness for C5 at a concrete catalog with no progressive stream. -/
theorem C5_witness :
    ∃ v a, select [vidWebm1080, vidMp4, audM4a] "720p" none
      = .ok (.pair v a) := by
  obtain ⟨v, a, h, -⟩ := (C5_explicit_resolution_fallback
    [vidWebm1080, vidMp4, audM4a] "720p" (by decide) (by decide) (by decide)).1
    (by decide) (by decide)
  exact ⟨v, a, h⟩

/-- A character allowed in the video-id group of the URL pattern. -/
def ytIdChar (c : Char) : Bool := c = '-' || c = '_' || c.isDigit || c.isAlpha

/-- Consume an exact literal prefix, returning the remainder. -/
def matchLit : List Char → List Char → Option (List Char)
  | [], rest => some rest
  | _ :: _, [] => none
  | p :: ps, c :: cs => if c = p then matchLit ps cs else none

/-- Try the URL pattern at one position: an optional scheme, an optional
www., one of the three host/path cores, then at least one id character.
The optional groups are matched greedily; since the pattern is searched
at every position this is boolean-equivalent to the backtracking match. -/
def ytMatchAt (s : List Char) : Bool :=
  let s1 := match matchLit ("https://" : String).data s with
    | some r => r
    | none =>
      match matchLit ("http://" : String).data s with
      | some r => r
      | none => s
  let s2 := match matchLit ("www." : String).data s1 with
    | some r => r
    | none => s1
  let core := fun (lit : String) =>
    match matchLit lit.data s2 with
    | some (c :: _) => ytIdChar c
    | _ => false
  core "youtube.com/watch?v=" || core "youtu.be/" || core "youtube.com/shorts/"

/-- re.search over all positions of the string. -/
def searchYt : List Char → Bool
  | [] => false
  | c :: cs => ytMatchAt (c :: cs) || searchYt cs

/-- Embedding of is_youtube_url. -/
def is_youtube_url (url : String) : Bool := searchYt url.data

/-- The exceptions the external client can raise, distinguished the way
the script's handlers distinguish them. MembersOnly and LiveStreamError
subclass VideoUnavailable; KeyboardInterrupt is not an Exception
subclass. -/
inductive PyExc
  | regexMatchError
  | videoUnavailable
  | membersOnly
  | liveStreamError
  | keyboardInterrupt
  | otherException
deriving DecidableEq

/-- The error that propagates out of download_video to main's handlers. -/
inductive RaisedErr
  | valueError
  | videoUnavailable
  | membersOnly
  | liveStream
  | runtimeError
  | keyboardInterrupt
  | otherError
deriving DecidableEq

/-- The try/except around the session constructor: RegexMatchError maps
to a ValueError, VideoUnavailable and its subclasses to a RuntimeError,
every other Exception to a RuntimeError; KeyboardInterrupt is not an
Exception and propagates unchanged. -/
def ctorWrap : PyExc → RaisedErr
  | .regexMatchError => .valueError
  | .videoUnavailable => .runtimeError
  | .membersOnly => .runtimeError
  | .liveStreamError => .runtimeError
  | .keyboardInterrupt => .keyboardInterrupt
  | .otherException => .runtimeError

/-- Exceptions raised outside that try block propagate unchanged. -/
def excToRaised : PyExc → RaisedErr
  | .regexMatchError => .otherError
  | .videoUnavailable => .videoUnavailable
  | .membersOnly => .membersOnly
  | .liveStreamError => .liveStream
  | .keyboardInterrupt => .keyboardInterrupt
  | .otherException => .otherError

/-- What the orchestration produced. -/
inductive OutKind
  | merged
  | videoOnly
  | separatePair
  | singleFile
deriving DecidableEq

/-- The observable outcome: the returned path, one entry per muxer
invocation (false = stream-copy merge, true = merge with the audio track
re-encoded), the kind of result, and the separately saved audio file in
the unmerged-pair case (none whenever the audio temporary is discarded
with the temporary directory). -/
structure Outcome where
  path : String
  muxCalls : List Bool
  kind : OutKind
  audioPath : Option String
deriving DecidableEq

/-- The environment one run interacts with: what the client raises at
session construction and at first metadata access, the resolved title and
catalog, what the download calls raise, whether the muxer binary is on
PATH, the success of its two invocations, and the file names already in
the output directory. -/
structure Env where
  ctorExc : Option PyExc
  accessExc : Option PyExc
  rawTitle : String
  catalog : List StreamDesc
  downloadExc : Option PyExc
  ffmpegPresent : Bool
  fastMergeOk : Bool
  fallbackMergeOk : Bool
  existing : List String
deriving DecidableEq

/-- Embedding of _download_and_merge_adaptive: download both legs into
the scoped temporary directory, then — when merging is enabled and the
muxer is present — attempt the fast stream-copy merge, on failure the
audio-re-encode fallback merge, and on a second failure move the
temporary video file alone (named video.<subtype>) to the output
directory under a unique name; otherwise move both files separately. The
audio temporary is discarded with the temporary directory in the
video-only and merged cases. -/
def mergeAdaptive (env : Env) (title vSub aSub : String) (mergeFlag : Bool) :
    Except RaisedErr Outcome :=
  match env.downloadExc with
  | some e => .error (excToRaised e)
  | none =>
    let outPath := unique_path env.existing title ".mp4"
    if mergeFlag && env.ffmpegPresent then
      if env.fastMergeOk then .ok ⟨outPath, [false], .merged, none⟩
      else if env.fallbackMergeOk then .ok ⟨outPath, [false, true], .merged, none⟩
      else
        .ok ⟨unique_path env.existing "video" ("." ++ vSub), [false, true], .videoOnly, none⟩
    else
      .ok ⟨unique_path env.existing (title ++ "_video") ("." ++ vSub), [], .separatePair,
        some (unique_path env.existing (title ++ "_audio") ("." ++ aSub))⟩

/-- Embedding of download_video: URL validation, session construction and
metadata access (with the environment's injected exceptions), the
sanitised title, list mode, selection, then the download or the
download-and-merge path. Returns none in list mode. -/
def downloadVideo (url quality : String) (listStreams : Bool) (itag : Option Nat)
    (mergeFlag : Bool) (env : Env) : Except RaisedErr (Option Outcome) :=
  if !is_youtube_url url then .error .valueError
  else
    match env.ctorExc with
    | some e => .error (ctorWrap e)
    | none =>
      match env.accessExc with
      | some e => .error (excToRaised e)
      | none =>
        let title := fs_safe_filename
          (if env.rawTitle = "" then "youtube_video" else env.rawTitle)
        if listStreams then .ok none
        else
          match select env.catalog quality itag with
          | .error .unknownItag => .error .valueError
          | .error _ => .error .runtimeError
          | .ok (.single s) =>
            match env.downloadExc with
            | some e => .error (excToRaised e)
            | none =>
              .ok (some ⟨unique_path env.existing title ("." ++ s.subtype), [],
                .singleFile, none⟩)
          | .ok (.pair v a) =>
            (mergeAdaptive env title v.subtype a.subtype mergeFlag).map some

/-- Embedding of main's exception-to-exit-code policy: ValueError exits
2, the VideoUnavailable family exits 3, KeyboardInterrupt is caught and
the process ends normally (0), any other exception exits 4, and a normal
return exits 0. -/
def mainExit (url quality : String) (listStreams : Bool) (itag : Option Nat)
    (noMerge : Bool) (env : Env) : Nat :=
  match downloadVideo url quality listStreams itag (!noMerge) env with
  | .ok _ => 0
  | .error .keyboardInterrupt => 0
  | .error .valueError => 2
  | .error .videoUnavailable => 3
  | .error .membersOnly => 3
  | .error .liveStream => 3
  | .error .runtimeError => 4
  | .error .otherError => 4

theorem unique_path_not_mem (existing : List String) (stem suffix : String) :
    unique_path existing stem suffix ∉ existing := by
  by_cases hc : existing.contains (stem ++ suffix) = true
  · unfold unique_path
    rw [if_pos hc]
    obtain ⟨k, hk, hfreek⟩ := exists_free_cand existing stem suffix
    have hsome := searchFrom_isSome existing stem suffix (existing.length + 1) 1
      ⟨k, hk, hfreek⟩
    obtain ⟨c, hcs⟩ := Option.isSome_iff_exists.mp hsome
    rw [hcs]
    obtain ⟨k2, -, hnotmem, -⟩ := searchFrom_spec existing stem suffix _ 1 c hcs
    simpa using hnotmem
  · unfold unique_path
    rw [if_neg hc]
    intro hmem
    exact hc (containsIffMem.mpr hmem)

/-- C2: with merging enabled and the muxer present (and the transfers
succeeding), a fast stream-copy merge is attempted; if it fails, exactly
one fallback merge re-encoding only the audio is attempted; if that also
fails, the temporary video file alone is moved to the output directory
under a unique (non-existing) name and a degraded video-only outcome is
returned as an ordinary success; a run that returns normally always exits
0; and no execution ever makes more than two muxer invocations. -/
theorem C2_merge_fallback_policy :
    (∀ (env : Env) (title vSub aSub : String), env.downloadExc = none →
      env.ffmpegPresent = true →
      ∃ out, mergeAdaptive env title vSub aSub true = .ok out
        ∧ (env.fastMergeOk = true → out.muxCalls = [false] ∧ out.kind = .merged)
        ∧ (env.fastMergeOk = false → env.fallbackMergeOk = true →
            out.muxCalls = [false, true] ∧ out.kind = .merged)
        ∧ (env.fastMergeOk = false → env.fallbackMergeOk = false →
            out.muxCalls = [false, true] ∧ out.kind = .videoOnly
            ∧ out.path = unique_path env.existing "video" ("." ++ vSub)
            ∧ out.path ∉ env.existing ∧ out.audioPath = none))
    ∧ (∀ env title vSub aSub mergeFlag out,
        mergeAdaptive env title vSub aSub mergeFlag = .ok out →
        out.muxCalls.length ≤ 2)
    ∧ (∀ url quality listStreams itag noMerge env r,
        downloadVideo url quality listStreams itag (!noMerge) env = .ok r →
        mainExit url quality listStreams itag noMerge env = 0) := by
  refine ⟨?_, ?_, ?_⟩
  · intro env title vSub aSub hdl hff
    unfold mergeAdaptive
    rw [hdl]
    cases hfast : env.fastMergeOk with
    | true =>
      refine ⟨⟨unique_path env.existing title ".mp4", [false], .merged, none⟩, ?_, ?_, ?_, ?_⟩
      · simp [hff, hfast]
      · intro _
        exact ⟨rfl, rfl⟩
      · intro h
        exact absurd h (by simp)
      · intro h
        exact absurd h (by simp)
    | false =>
      cases hfb : env.fallbackMergeOk with
      | true =>
        refine ⟨⟨unique_path env.existing title ".mp4", [false, true], .merged, none⟩,
          ?_, ?_, ?_, ?_⟩
        · simp [hff, hfast, hfb]
        · intro h
          exact absurd h (by simp)
        · intro _ _
          exact ⟨rfl, rfl⟩
        · intro _ h
          exact absurd h (by simp)
      | false =>
        refine ⟨⟨unique_path env.existing "video" ("." ++ vSub), [false, true],
          .videoOnly, none⟩, ?_, ?_, ?_, ?_⟩
        · simp [hff, hfast, hfb]
        · intro h
          exact absurd h (by simp)
        · intro _ h
          exact absurd h (by simp)
        · intro _ _
          exact ⟨rfl, rfl, rfl, unique_path_not_mem env.existing "video" ("." ++ vSub), rfl⟩
  · intro env title vSub aSub mergeFlag out h
    unfold mergeAdaptive at h
    cases hdl : env.downloadExc with
    | some e =>
      rw [hdl] at h
      exact absurd h (by simp)
    | none =>
      rw [hdl] at h
      by_cases hmf : (mergeFlag && env.ffmpegPresent) = true
      · rw [if_pos hmf] at h
        by_cases hfast : env.fastMergeOk = true
        · rw [if_pos hfast] at h
          injection h with h
          rw [← h]
          simp
        · rw [if_neg hfast] at h
          by_cases hfb : env.fallbackMergeOk = true
          · rw [if_pos hfb] at h
            injection h with h
            rw [← h]
            simp
          · rw [if_neg hfb] at h
            injection h with h
            rw [← h]
            simp
      · rw [if_neg hmf] at h
        injection h with h
        rw [← h]
        simp
  · intro url quality listStreams itag noMerge env r h
    unfold mainExit
    rw [h]

/-- Witness for C2: a run in which both muxer invocations fail still
returns a video-only outcome. -/
theorem C2_witness :
    ∃ out, mergeAdaptive ⟨none, none, "T", [], none, true, false, false, []⟩
        "T" "mp4" "mp4" true = .ok out := by
  obtain ⟨out, h, -⟩ := C2_merge_fallback_policy.1
    ⟨none, none, "T", [], none, true, false, false, []⟩ "T" "mp4" "mp4" rfl rfl
  exact ⟨out, h⟩

/-- A benign environment: session and metadata access succeed, the
catalog holds one progressive mp4 stream, transfers succeed, the muxer is
present, and the output directory is empty. -/
def envGood : Env :=
  ⟨none, none, "Title", [⟨22, "mp4", true, true, true, some "720p", some "192kbps"⟩],
    none, true, true, true, []⟩

/-- An environment in which the client raises VideoUnavailable already at
session construction. -/
def envCtorUnavail : Env :=
  ⟨some .videoUnavailable, none, "Title", [], none, true, true, true, []⟩

/-- C3 counterexample: (a) the quality string "ultra" is none of
best/audio/digits+p, yet the run exits 0 — the unrecognised quality is
silently treated as best instead of exiting 2; (b) a VideoUnavailable
raised at session construction is wrapped into a RuntimeError and exits
4, not 3. -/
theorem C3_counterexample :
    mainExit "https://youtu.be/abc123" "ultra" false none false envGood = 0
    ∧ qualityIsAudio "ultra" = false ∧ isResQuality "ultra" = false
    ∧ "ultra" ≠ "best"
    ∧ mainExit "https://youtu.be/abc123" "best" false none false envCtorUnavail = 4 := by
  decide

/-- C3 amended: exit 2 for an invalid URL or an unknown itag; a quality
string that is none of audio/digits+p is not an input error — it is
treated exactly like best; exit 3 for the VideoUnavailable family raised
while reading metadata, while VideoUnavailable at session construction
exits 4; exit 0 on success, in list mode, and on user interrupt; exit 4
for the remaining failures. -/
theorem C3_exit_codes_amended :
    (∀ url quality ls itag nm env, is_youtube_url url = false →
        mainExit url quality ls itag nm env = 2)
    ∧ (∀ url quality nm (env : Env) i, is_youtube_url url = true →
        env.ctorExc = none → env.accessExc = none →
        get_by_itag env.catalog i = none →
        mainExit url quality false (some i) nm env = 2)
    ∧ (∀ url quality ls itag nm (env : Env) e, is_youtube_url url = true →
        env.ctorExc = none → env.accessExc = some e →
        (e = .videoUnavailable ∨ e = .membersOnly ∨ e = .liveStreamError) →
        mainExit url quality ls itag nm env = 3)
    ∧ (∀ url quality ls itag nm (env : Env), is_youtube_url url = true →
        env.ctorExc = some .videoUnavailable →
        mainExit url quality ls itag nm env = 4)
    ∧ (∀ url quality itag nm (env : Env), is_youtube_url url = true →
        env.ctorExc = none → env.accessExc = none →
        mainExit url quality true itag nm env = 0)
    ∧ (∀ url ls itag nm (env : Env) q1 q2,
        qualityIsAudio q1 = false → isResQuality q1 = false →
        qualityIsAudio q2 = false → isResQuality q2 = false →
        mainExit url q1 ls itag nm env = mainExit url q2 ls itag nm env)
    ∧ (∀ url quality ls itag nm env r,
        downloadVideo url quality ls itag (!nm) env = .ok r →
        mainExit url quality ls itag nm env = 0)
    ∧ (∀ url quality ls itag nm env,
        downloadVideo url quality ls itag (!nm) env = .error .keyboardInterrupt →
        mainExit url quality ls itag nm env = 0) := by
  refine ⟨?_, ?_, ?_, ?_, ?_, ?_, ?_, ?_⟩
  · intro url quality ls itag nm env hurl
    unfold mainExit downloadVideo
    rw [hurl]
    rfl
  · intro url quality nm env i hurl hctor hacc hitag
    unfold mainExit downloadVideo
    rw [hurl, hctor, hacc]
    have hsel : select env.catalog quality (some i) = .error .unknownItag := by
      show selectItagBranch env.catalog i = .error .unknownItag
      unfold selectItagBranch
      rw [hitag]
    rw [hsel]
    rfl
  · intro url quality ls itag nm env e hurl hctor hacc he
    unfold mainExit downloadVideo
    rw [hurl, hctor, hacc]
    rcases he with he | he | he <;> rw [he] <;> rfl
  · intro url quality ls itag nm env hurl hctor
    unfold mainExit downloadVideo
    rw [hurl, hctor]
    rfl
  · intro url quality itag nm env hurl hctor hacc
    unfold mainExit downloadVideo
    rw [hurl, hctor, hacc]
    rfl
  · intro url ls itag nm env q1 q2 h1a h1r h2a h2r
    have hsel : select env.catalog q1 itag = select env.catalog q2 itag := by
      cases itag with
      | some i => rfl
      | none => rw [select_best_eq h1a h1r, select_best_eq h2a h2r]
    unfold mainExit downloadVideo
    rw [hsel]
  · intro url quality ls itag nm env r h
    unfold mainExit
    rw [h]
  · intro url quality ls itag nm env h
    unfold mainExit
    rw [h]

/-- Witness for C3's amended statement: an invalid URL exits 2. -/
theorem C3_witness :
    mainExit "not-a-video-url" "best" false none false envGood = 2 :=
  C3_exit_codes_amended.1 "not-a-video-url" "best" false none false envGood (by decide)
